import Mathlib

/-!
Verification development for the Shrdlite blocks-world planner.

The definitions below are a shallow embedding of the TypeScript source:
the Planner module (`conjunctive`, `goal`, `estimatedPathLength`,
`heuristicFunction`, `getReachableStates`, `argmin`), the Interpreter
helpers (`stackIndex`, `stackIndexOf`, `isInSameStack`, `checkRelation`)
and the generic A* engine of Graph.ts (`aStarSearch`).

JavaScript numbers that can be `NaN`, `Infinity` or an integer are
modelled by the inductive type `JSNum`; the JavaScript value `undefined`
is modelled by `Option`.  A JavaScript `TypeError` (reading a field of
`undefined`) is modelled by returning `none` from an `Option`-valued
function.  While-loops that the source does not prove terminating are
given an explicit fuel parameter.
-/

namespace Shrdlite

/-- Model of a JavaScript number as it occurs in this program:
`NaN`, `Infinity`, or an integer. -/
inductive JSNum where
  | nan : JSNum
  | inf : JSNum
  | num : Int → JSNum
deriving DecidableEq, Repr

/-- JavaScript addition on `JSNum` (`NaN` absorbs; `Infinity + x = Infinity`
for non-`NaN` `x`; no `-Infinity` arises in this program). -/
def jadd : JSNum → JSNum → JSNum
  | JSNum.nan, _ => JSNum.nan
  | _, JSNum.nan => JSNum.nan
  | JSNum.inf, _ => JSNum.inf
  | _, JSNum.inf => JSNum.inf
  | JSNum.num a, JSNum.num b => JSNum.num (a + b)

/-- JavaScript strict `<` on `JSNum` (comparisons with `NaN` are false,
`Infinity < Infinity` is false). -/
def jltB : JSNum → JSNum → Bool
  | JSNum.num a, JSNum.num b => a < b
  | JSNum.num _, JSNum.inf => true
  | _, _ => false

/-- JavaScript `>=` on `JSNum` (comparisons with `NaN` are false,
`Infinity >= x` is true for non-`NaN` `x`). -/
def jgeB : JSNum → JSNum → Bool
  | JSNum.num a, JSNum.num b => b ≤ a
  | JSNum.inf, JSNum.num _ => true
  | JSNum.inf, JSNum.inf => true
  | _, _ => false

/-- Subtraction of an integer constant from a `JSNum`
(models `x - 1` in the source). -/
def jsubNum : JSNum → Int → JSNum
  | JSNum.nan, _ => JSNum.nan
  | JSNum.inf, _ => JSNum.inf
  | JSNum.num a, k => JSNum.num (a - k)

/-- Models `Math.abs(a - b)` where `a` is a number and `b` may be
`undefined` (giving `NaN`). -/
def absSubIntOpt (a : Int) : Option Int → JSNum
  | some b => JSNum.num ((a - b).natAbs : Int)
  | none => JSNum.nan

/-- Models `Math.abs(a - b)` where both operands may be `undefined`. -/
def absSubOO : Option Int → Option Int → JSNum
  | some a, some b => JSNum.num ((a - b).natAbs : Int)
  | _, _ => JSNum.nan

/-- Models `Math.abs(a - b)` where `a` may be `undefined` and `b` is a
number. -/
def absSubOI : Option Int → Int → JSNum
  | some a, b => JSNum.num ((a - b).natAbs : Int)
  | none, _ => JSNum.nan

/-- Models the JavaScript test `(a - b) < 0` on two possibly-`undefined`
numbers (`NaN < 0` is false). -/
def subLtZeroB : Option Int → Option Int → Bool
  | some a, some b => a - b < 0
  | _, _ => false

/-- Models JavaScript loose equality `x == y` between two values that are
each either a string or `null`/`undefined` (`null == undefined` is true). -/
def jsEqNull : Option String → Option String → Bool
  | none, none => true
  | some a, some b => a == b
  | _, _ => false

/-- Models `a + 1 == b` on possibly-`undefined` numbers
(`NaN` comparisons are false). -/
def jsAdd1Eq : Option Int → Option Int → Bool
  | some a, some b => a + 1 == b
  | _, _ => false

/-- Models `a - 1 == b` on possibly-`undefined` numbers. -/
def jsSub1Eq : Option Int → Option Int → Bool
  | some a, some b => a - 1 == b
  | _, _ => false

/-- Models `a > b` on possibly-`undefined` numbers. -/
def jsGtB : Option Int → Option Int → Bool
  | some a, some b => b < a
  | _, _ => false

/-- Models `a < b` on possibly-`undefined` numbers. -/
def jsLtB : Option Int → Option Int → Bool
  | some a, some b => a < b
  | _, _ => false

/-- Models `a == b` on two possibly-`undefined` numbers under JavaScript
loose equality (`undefined == undefined` is true). -/
def jsEqOptB : Option Int → Option Int → Bool
  | some a, some b => a == b
  | none, none => true
  | _, _ => false

/-- A literal of the goal DNF: `polarity`, `relation` name and argument
object identifiers (Interpreter.Literal). -/
structure Literal where
  polarity : Bool
  relation : String
  args : List String
deriving DecidableEq, Repr

/-- Static object attributes (`size`, `color`, `form`); fields are
`Option` because the synthetic floor object has `null` size and color. -/
structure ObjRec where
  size : Option String
  color : Option String
  form : Option String
deriving DecidableEq, Repr

/-- The synthetic floor object `{"size":null,"color":null,"form":"floor"}`
constructed by `checkRelation`. -/
def floorRec : ObjRec := ⟨none, none, some "floor"⟩

/-- The blocks-world state: `stacks` (columns, bottom first), `holding`
(`null` modelled as `none`), `arm` (column index), and the static object
map (modelled as an association list). -/
structure WorldState where
  stacks' : List (List String)
  holding : Option String
  arm : Int
  objects : List (String × ObjRec)
deriving DecidableEq, Repr

/-- Indexing a list by a JavaScript number: out-of-range or negative
indices give `undefined`. -/
def stackAt (l : List (List String)) (i : Int) : Option (List String) :=
  if 0 ≤ i then l[i.toNat]? else none

/-- Indexing a list of numbers by a JavaScript number. -/
def intAt (l : List Int) (i : Int) : Option Int :=
  if 0 ≤ i then l[i.toNat]? else none

/-- Assignment `l[i] = x` for an in-range index (all uses in the source
are guarded so that `0 ≤ i`). -/
def setAt (l : List (List String)) (i : Int) (x : List String) : List (List String) :=
  if 0 ≤ i then l.set i.toNat x else l

/-- Lookup `state.objects[tag]`; `none` models `undefined`. -/
def lookupObj (s : WorldState) (tag : String) : Option ObjRec :=
  (s.objects.find? (fun p => p.1 == tag)).map (fun p => p.2)

/-- First index of `t` in a single stack (JavaScript `indexOf`, with
`none` for `-1`). -/
def idxOfAux (t : String) : List String → Option Nat
  | [] => none
  | y :: rest => if y == t then some 0 else (idxOfAux t rest).map (· + 1)

/-- Scan of `stackIndexOf`: the index of `t` inside the first stack that
contains it. -/
def stackIndexOfAux (t : String) : List (List String) → Option Int
  | [] => none
  | st :: rest =>
    match idxOfAux t st with
    | some j => some (j : Int)
    | none => stackIndexOfAux t rest

/-- Interpreter.stackIndexOf: the position of the tag within its stack;
`-1` for the floor, `undefined` (`none`) when the tag occurs in no stack
(an `undefined` tag is found nowhere). -/
def stackIndexOf (tag : Option String) (s : WorldState) : Option Int :=
  match tag with
  | none => none
  | some t => if t == "floor" then some (-1) else stackIndexOfAux t s.stacks'

/-- Scan of `stackIndex`: the index of the first stack containing `t`. -/
def stackIndexAux (t : String) : List (List String) → Int → Option Int
  | [], _ => none
  | st :: rest, i => if st.contains t then some i else stackIndexAux t rest (i + 1)

/-- Interpreter.stackIndex: the index of the stack containing the tag,
`undefined` (`none`) when it occurs in no stack (also for `"floor"` and
for an `undefined` tag). -/
def stackIndex (tag : Option String) (s : WorldState) : Option Int :=
  match tag with
  | none => none
  | some t => stackIndexAux t s.stacks' 0

/-- Interpreter.isInSameStack: both tags in the same stack, or the
relative tag is the floor. -/
def isInSameStack (t r : Option String) (s : WorldState) : Bool :=
  (jsGtB (stackIndex t s) (some (-1)) && jsEqOptB (stackIndex t s) (stackIndex r s))
    || (jsEqNull r (some "floor"))

/-- Planner.conjunctive: truth of a single literal in a state.  Argument
accesses `args[0]`, `args[1]` can yield `undefined`, modelled by
`List.get?`. -/
def conjunctive (lit : Literal) (s : WorldState) : Bool :=
  let relation := lit.relation
  let a0 := lit.args[0]?
  let a1 := lit.args[1]?
  if relation == "holding" then
    jsEqNull s.holding a0
  else if relation == "inside" || relation == "ontop" then
    if isInSameStack a0 a1 s then
      jsSub1Eq (stackIndexOf a0 s) (stackIndexOf a1 s)
    else false
  else if relation == "above" then
    if isInSameStack a0 a1 s then
      jsGtB (stackIndexOf a0 s) (stackIndexOf a1 s)
    else false
  else if relation == "under" then
    if isInSameStack a0 a1 s then
      jsLtB (stackIndexOf a0 s) (stackIndexOf a1 s)
    else false
  else if relation == "beside" then
    jsAdd1Eq (stackIndex a0 s) (stackIndex a1 s)
      || jsSub1Eq (stackIndex a0 s) (stackIndex a1 s)
  else if relation == "leftof" then
    jsAdd1Eq (stackIndex a0 s) (stackIndex a1 s)
  else if relation == "rightof" then
    jsSub1Eq (stackIndex a0 s) (stackIndex a1 s)
  else false

/-- Planner.goal: the DNF formula is satisfied when some disjunct has all
its literals satisfied (the source AND-folds each disjunct and returns on
the first true one). -/
def goal (interpretation : List (List Literal)) (s : WorldState) : Bool :=
  interpretation.any (fun disj => disj.all (fun lit => conjunctive lit s))

/-- Queue-driven circular scan of Planner.argmin.  Each visited index
updates the running minimum when `vs[i] < min` (comparison with an
out-of-range `undefined` entry is false); indices at or above the start
enqueue their successor, indices at or below it enqueue their
predecessor.  The fuel passed by `argmin` exceeds the number of indices
the queue can ever visit, so it never runs out. -/
def argminFromQueue (vs : List Int) (startPos : Int) :
    Nat → List Int → Option Int → JSNum → Option Int
  | 0, _, acc, _ => acc
  | _ + 1, [], acc, _ => acc
  | fuel + 1, i :: rest, acc, m =>
    let v := intAt vs i
    let isLess := match v with
      | some x => jltB (JSNum.num x) m
      | none => false
    let acc' := if isLess then some i else acc
    let m' := match v with
      | some x => if isLess then JSNum.num x else m
      | none => m
    let q1 := if startPos ≤ i && i + 1 < (vs.length : Int) then rest ++ [i + 1] else rest
    let q2 := if i ≤ startPos && 0 ≤ i - 1 then q1 ++ [i - 1] else q1
    argminFromQueue vs startPos fuel q2 acc' m'

/-- Planner.argmin: index of the minimum of `vs`, searched circularly
outward from `startPos` (`undefined` start position defaults to 0); the
result is `undefined` (`none`) when no entry ever beats `Infinity`,
i.e. when `vs` is empty. -/
def argmin (vs : List Int) (startPos : Option Int) : Option Int :=
  let sp := startPos.getD 0
  argminFromQueue vs sp (vs.length + sp.natAbs + 4) [sp] none JSNum.inf

/-- The `rel == "holding"` branch of Planner.estimatedPathLength, also
the target of its two recursive self-calls (which always pass a
`holding` literal with one argument, so the recursion is bounded): 0
when already held, `Infinity` when the tag is the floor or occurs in no
stack, else arm travel plus 4 per obstacle above the target plus 1. -/
def estHolding (s : WorldState) (targetTag : String) : JSNum :=
  if jsEqNull (some targetTag) s.holding then JSNum.num 0
  else
    match stackIndex (some targetTag) s, stackIndexOf (some targetTag) s with
    | some targetStackIndex, some targetStackIndexOf =>
      let numObstacles : Int :=
        (((stackAt s.stacks' targetStackIndex).getD []).length : Int) - (targetStackIndexOf + 1)
      JSNum.num (((s.arm - targetStackIndex).natAbs : Int) + 4 * numObstacles + 1)
    | _, _ => JSNum.inf

/-- Planner.estimatedPathLength: per-literal step estimate.  `inside` is
rewritten to `ontop`; the branch meant for `rightof` tests the
misspelling `"rigtof"`, so a literal whose relation is `"rightof"` falls
through to the final branch, which logs an error and returns the initial
`result` value 0; arity mismatches likewise log and return 0.  In the
`ontop`-on-floor case the source reads `stacks[argmin(...)].length`,
which throws when `stacks` is empty; this embedding returns 0 obstacles
there (every theorem below that quantifies over states assumes a
non-empty stack list). -/
def estimatedPathLength (s : WorldState) (condition : Literal) : JSNum :=
  let rel0 := condition.relation
  let rel := if rel0 == "inside" then "ontop" else rel0
  if rel == "holding" then
    match condition.args with
    | [targetTag] => estHolding s targetTag
    | _ => JSNum.num 0
  else if rel == "above" || rel == "under" then
    match condition.args with
    | [x, y] =>
      let targetTag := if rel == "above" then x else y
      let relativeTag := if rel == "above" then y else x
      let targetStackIndex0 := stackIndex (some targetTag) s
      let relativeStackIndex := stackIndex (some relativeTag) s
      let held := jsEqNull s.holding (some targetTag)
      let targetStackIndex := if held then some s.arm else targetStackIndex0
      let r1 := if held then JSNum.num 0
        else jadd (absSubIntOpt s.arm targetStackIndex0) (estHolding s targetTag)
      jadd (jadd r1 (absSubOO targetStackIndex relativeStackIndex)) (JSNum.num 1)
    | _ => JSNum.num 0
  else if rel == "ontop" then
    match condition.args with
    | [x, y] =>
      let targetTag := x
      let targetStackIndex0 := stackIndex (some targetTag) s
      let held := jsEqNull s.holding (some targetTag)
      let targetStackIndex := if held then some s.arm else targetStackIndex0
      let relativeTag := y
      let relativeStackIndex0 := stackIndex (some relativeTag) s
      let pick := if !held then estHolding s targetTag else JSNum.num 0
      if relativeTag == "floor" then
        let stackLengths := s.stacks'.map (fun v => (v.length : Int))
        let relativeStackIndex := argmin stackLengths targetStackIndex
        let numElsInShortestStack : Int :=
          match relativeStackIndex with
          | some k => (((stackAt s.stacks' k).getD []).length : Int)
          | none => 0
        let clear := if 0 < numElsInShortestStack then
            jadd (absSubOI relativeStackIndex s.arm) (JSNum.num (4 * numElsInShortestStack))
          else JSNum.num 0
        jadd (jadd (jadd clear pick) (absSubOO relativeStackIndex targetStackIndex)) (JSNum.num 1)
      else
        let clear := jsubNum (estHolding s relativeTag) 1
        jadd (jadd (jadd clear pick) (absSubOO relativeStackIndex0 targetStackIndex)) (JSNum.num 1)
    | _ => JSNum.num 0
  else if rel == "leftof" then
    match condition.args with
    | [x, y] =>
      let targetTag := x
      let targetStackIndex0 := stackIndex (some targetTag) s
      let held := jsEqNull s.holding (some targetTag)
      let targetStackIndex := if held then some s.arm else targetStackIndex0
      let r1 := estHolding s targetTag
      let relativeTag := y
      let relativeStackIndex0 := stackIndex (some relativeTag) s
      let heldR := jsEqNull s.holding (some relativeTag)
      let relativeStackIndex := if heldR then some s.arm else relativeStackIndex0
      jadd (jadd (jadd r1 (absSubOO relativeStackIndex targetStackIndex)) (JSNum.num 1)) (JSNum.num 1)
    | _ => JSNum.num 0
  else if rel == "rigtof" then
    match condition.args with
    | [x, y] =>
      let targetTag := x
      let targetStackIndex0 := stackIndex (some targetTag) s
      let held := jsEqNull s.holding (some targetTag)
      let targetStackIndex := if held then some s.arm else targetStackIndex0
      let r1 := estHolding s targetTag
      let relativeTag := y
      let relativeStackIndex0 := stackIndex (some relativeTag) s
      let heldR := jsEqNull s.holding (some relativeTag)
      let relativeStackIndex := if heldR then some s.arm else relativeStackIndex0
      jadd (jadd (jadd r1 (absSubOO relativeStackIndex targetStackIndex)) (JSNum.num 1)) (JSNum.num 1)
    | _ => JSNum.num 0
  else if rel == "beside" then
    match condition.args with
    | [x, y] =>
      let targetTag := x
      let targetStackIndex0 := stackIndex (some targetTag) s
      let held := jsEqNull s.holding (some targetTag)
      let targetStackIndex := if held then some s.arm else targetStackIndex0
      let r1 := estHolding s targetTag
      let relativeTag := y
      let relativeStackIndex0 := stackIndex (some relativeTag) s
      let heldR := jsEqNull s.holding (some relativeTag)
      let relativeStackIndex := if heldR then some s.arm else relativeStackIndex0
      let r2 := jadd r1 (absSubOO relativeStackIndex targetStackIndex)
      let r3 := if subLtZeroB relativeStackIndex targetStackIndex then jadd r2 (JSNum.num 1) else r2
      jadd (jadd r3 (JSNum.num 1)) (JSNum.num 1)
    | _ => JSNum.num 0
  else JSNum.num 0

/-- Sum of the per-literal estimates of one conjunction (the inner loop
of Planner.heuristicFunction). -/
def conjSum (s : WorldState) (disj : List Literal) : JSNum :=
  disj.foldl (fun acc lit => jadd acc (estimatedPathLength s lit)) (JSNum.num 0)

/-- Planner.heuristicFunction: 0 on goal states, otherwise the running
minimum (under the JavaScript `<`) of the conjunction sums, starting
from `Infinity`. -/
def heuristicFunction (s : WorldState) (interpretation : List (List Literal)) : JSNum :=
  if goal interpretation s then JSNum.num 0
  else interpretation.foldl
    (fun minH disj =>
      let thisH := conjSum s disj
      if jltB thisH minH then thisH else minH)
    JSNum.inf

/-- Models the JavaScript reference equality `a == b` between the two
object lookups of Interpreter.checkRelation: the floor literal is
freshly allocated (never equal to anything), two successful lookups
coincide exactly when the tags coincide, and two failed lookups are both
`undefined` (equal under `==`). -/
def refEqObjs (s : WorldState) (a0 a1 : String) : Bool :=
  if a1 == "floor" then false
  else if a0 == a1 then true
  else lookupObj s a0 == none && lookupObj s a1 == none

/-- Interpreter.checkRelation (the physical-law predicate).  The result
`none` models the JavaScript `TypeError` thrown when a field of an
`undefined` lookup is read (`b.form`, `a.form`, `a.size`). -/
def checkRelation (rel : String) (args : List String) (s : WorldState) : Option Bool :=
  match args with
  | [a0] =>
    let a := if a0 == "floor" then some floorRec else lookupObj s a0
    if rel == "holding" then
      match a with
      | none => none
      | some aRec => if aRec.form == some "floor" then some false else some true
    else some true
  | [a0, a1] =>
    let a := lookupObj s a0
    let b0 := if a1 == "floor" then some floorRec else lookupObj s a1
    match b0 with
    | none => none
    | some b =>
      let rel := if b.form == some "box" && rel == "ontop" then "inside" else rel
      if refEqObjs s a0 a1 then some false
      else if rel == "ontop" then
        match a with
        | none => none
        | some aRec =>
          if aRec.form == some "ball"
              && !(b.form == some "floor" || b.form == some "box") then some false
          else if b.form == some "ball" then some false
          else if aRec.size == some "large" && b.size == some "small" then some false
          else if aRec.form == some "box" && aRec.size == some "small"
              && ((b.form == some "pyramid" && b.size == some "small")
                  || (b.form == some "brick" && b.size == some "small")) then some false
          else if aRec.form == some "box" && aRec.size == some "large"
              && b.form == some "pyramid" && b.size == some "large" then some false
          else some true
      else if rel == "inside" then
        match a with
        | none => none
        | some aRec =>
          if aRec.size == some "large" && b.size == some "small" then some false
          else if b.form == some "box" && aRec.size == b.size
              && (aRec.form == some "pyramid" || aRec.form == some "plank"
                  || aRec.form == some "box") then some false
          else some true
      else some true
  | _ => some false

/-- The `stackTopObjectTag` of Planner.getReachableStates: the top
object of the stack under the arm, or `"floor"` when it is empty. -/
def topTag (st : List String) : String :=
  match st.getLast? with
  | none => "floor"
  | some t => t

/-- The pick-up successor built by Planner.getReachableStates: the top
of the stack under the arm is popped into `holding`. -/
def pickState (s : WorldState) (st : List String) : WorldState :=
  { s with stacks' := setAt s.stacks' s.arm st.dropLast, holding := st.getLast? }

/-- The drop successor built by Planner.getReachableStates: the held
object is pushed onto the stack under the arm and `holding` cleared. -/
def dropState (s : WorldState) (st : List String) (heldObjectTag : String) : WorldState :=
  { s with stacks' := setAt s.stacks' s.arm (st ++ [heldObjectTag]), holding := none }

/-- Planner.getReachableStates: the states reachable by one arm action.
The `none` result models the `TypeError` thrown when the arm index is
out of range (reading `.length` of an `undefined` stack) or propagated
from `checkRelation`.  The source builds each successor from a deep
clone of the input, so successors are fresh structural copies; in this
pure embedding that is the ordinary record update. -/
def getReachableStates (s : WorldState) : Option (List WorldState) :=
  let leftStates := if 0 < s.arm then [{ s with arm := s.arm - 1 }] else []
  let rightStates :=
    if s.arm < (s.stacks'.length : Int) - 1 then [{ s with arm := s.arm + 1 }] else []
  let base := leftStates ++ rightStates
  match stackAt s.stacks' s.arm with
  | none => none
  | some stateStackBelowArm =>
    match s.holding with
    | none =>
      if 0 < stateStackBelowArm.length then
        some (base ++ [pickState s stateStackBelowArm])
      else some base
    | some heldObjectTag =>
      match checkRelation "ontop" [heldObjectTag, topTag stateStackBelowArm] s with
      | none => none
      | some canDrop =>
        if canDrop then
          some (base ++ [dropState s stateStackBelowArm heldObjectTag])
        else some base

/-- One transition of the state graph: `t` is among the reachable states
of `s` (and computing them does not throw). -/
def oneStep (s t : WorldState) : Prop :=
  ∃ l, getReachableStates s = some l ∧ t ∈ l

/-- `reachesIn n s t`: a plan of exactly `n` one-step transitions leads
from `s` to `t`. -/
def reachesIn : Nat → WorldState → WorldState → Prop
  | 0, s, t => s = t
  | n + 1, s, t => ∃ m, oneStep s m ∧ reachesIn n m t

/-- An edge of the generic search graph (fields `from`/`to` of the
source are renamed `src`/`dst`; `from` is reserved in Lean). -/
structure AEdge (Node : Type) where
  src : Node
  dst : Node
  cost : JSNum
deriving DecidableEq, Repr

/-- The result type of the search: the found path and its cost. -/
structure ASearchResult (Node : Type) where
  path : List Node
  cost : JSNum
deriving DecidableEq, Repr

/-- NodeTable.GetFVal: value of the first entry whose node equals `n`,
else the table's default.  The source compares nodes with `==`, which is
value equality for the primitive node types this embedding is
instantiated at. -/
def ntGetFVal {Node α : Type} [DecidableEq Node]
    (t : List (Node × α)) (dflt : α) (n : Node) : α :=
  match t.find? (fun p => p.1 == n) with
  | some p => p.2
  | none => dflt

/-- NodeTable.Insert: overwrite the first entry for `n`, else append. -/
def ntInsert {Node α : Type} [DecidableEq Node] :
    List (Node × α) → Node → α → List (Node × α)
  | [], n, v => [(n, v)]
  | p :: rest, n, v => if p.1 == n then (p.1, v) :: rest else p :: ntInsert rest n v

/-- NodeTable lookup with default `undefined` (used for `cameFrom`). -/
def ntLookup {Node α : Type} [DecidableEq Node]
    (t : List (Node × α)) (n : Node) : Option α :=
  (t.find? (fun p => p.1 == n)).map (fun p => p.2)

/-- NodeTable.GetArgMinAmong: first strict minimiser of the `fScore`
values over the feasible set (`minF` starts as `undefined`, so the first
element is always taken). -/
def argMinAmong {Node : Type} [DecidableEq Node]
    (fScore : List (Node × JSNum)) (feasibleSet : List Node) : Option Node :=
  (feasibleSet.foldl
    (fun (acc : Option Node × Option JSNum) n =>
      let fv := ntGetFVal fScore JSNum.inf n
      match acc.2 with
      | none => (some n, some fv)
      | some m => if jltB fv m then (some n, some fv) else acc)
    (none, none)).1

/-- Graph.reconstructPath.  The source walks `cameFrom` links from the
goal back to `start`, pushing each predecessor and adding
`cameFrom.GetFVal(current)` — a node, coerced to a number by `+=`,
modelled by `nodeVal` — to the cost (`undefined` gives `NaN`); the built
array is reversed at the end.  A missing link makes the source loop
forever, modelled by fuel exhaustion (`none`). -/
def reconstructPath {Node : Type} [DecidableEq Node]
    (cameFrom : List (Node × Node)) (nodeVal : Node → JSNum) (start : Node) :
    Nat → Node → List Node → JSNum → Option (ASearchResult Node)
  | 0, _, _, _ => none
  | fuel + 1, current, path, cost =>
    if current == start then some ⟨path.reverse, cost⟩
    else
      match ntLookup cameFrom current with
      | none => none
      | some p =>
        let cost' := jadd cost
          (match ntLookup cameFrom p with
           | some q => nodeVal q
           | none => JSNum.nan)
        reconstructPath cameFrom nodeVal start fuel p (path ++ [p]) cost'

/-- The mutable tables of the aStarSearch main loop. -/
structure ALoopState (Node : Type) where
  openSet : List Node
  gScore : List (Node × JSNum)
  fScore : List (Node × JSNum)
  cameFrom : List (Node × Node)

/-- The body of one neighbour-expansion step of aStarSearch (the inner
`for` loop over `outgoingEdges(current)`).  A neighbour in the closed
set is skipped; an unseen neighbour is pushed onto the open set; a
neighbour whose tentative g-score does not improve the recorded one is
skipped; otherwise `cameFrom`, `gScore` are updated and `fScore` is
re-inserted with its own previous value (the source inserts
`fScore.GetFVal(thisNeighbour)`, not the tentative f). -/
def expandEdge {Node : Type} [DecidableEq Node]
    (closedSet : List Node) (current : Node)
    (st : ALoopState Node) (e : AEdge Node) : ALoopState Node :=
  let nb := e.dst
  if closedSet.contains nb then st
  else
    let tg := jadd (ntGetFVal st.gScore JSNum.inf current) e.cost
    let pushed := !(st.openSet.contains nb)
    if pushed || !(jgeB tg (ntGetFVal st.gScore JSNum.inf nb)) then
      { openSet := if pushed then st.openSet ++ [nb] else st.openSet
        gScore := ntInsert st.gScore nb tg
        fScore := ntInsert st.fScore nb (ntGetFVal st.fScore JSNum.inf nb)
        cameFrom := ntInsert st.cameFrom nb current }
    else st

/-- The `while` loop of Graph.aStarSearch (lines 113-179): pop the
f-minimal open node, return the reconstructed path when it satisfies the
goal, otherwise close it and expand its outgoing edges.  When the open
set empties, `result` is still `undefined` (`none`).  The fuel models
the unbounded loop; the source itself never stops for any other reason
— in particular it never consults a clock. -/
def aStarLoop {Node : Type} [DecidableEq Node]
    (outgoingEdges : Node → List (AEdge Node)) (gl : Node → Bool)
    (nodeVal : Node → JSNum) (start : Node) :
    Nat → List Node → ALoopState Node → Option (ASearchResult Node)
  | 0, _, _ => none
  | fuel + 1, closedSet, st =>
    match st.openSet with
    | [] => none
    | _ :: _ =>
      match argMinAmong st.fScore st.openSet with
      | none => none
      | some current =>
        if gl current then
          reconstructPath st.cameFrom nodeVal start (fuel + 1) current [current] (JSNum.num 0)
        else
          let closedSet1 := closedSet ++ [current]
          let st1 := { st with openSet := st.openSet.erase current }
          let st2 := (outgoingEdges current).foldl (expandEdge closedSet1 current) st1
          aStarLoop outgoingEdges gl nodeVal start fuel closedSet1 st2

/-- Graph.aStarSearch (lines 113-179 of Graph.ts): generic A* search.
The `timeout` parameter is declared by the source but never read — no
clock is consulted anywhere in the function.  `nodeVal` models the
JavaScript numeric coercion of a node (used only by the cost-accum bug
of `reconstructPath`); `fuel` bounds the number of loop iterations of
this embedding. -/
def aStarSearch {Node : Type} [DecidableEq Node]
    (graphOutgoingEdges : Node → List (AEdge Node)) (start : Node)
    (gl : Node → Bool) (heuristics : Node → JSNum) (timeout : JSNum)
    (nodeVal : Node → JSNum) (fuel : Nat) : Option (ASearchResult Node) :=
  aStarLoop graphOutgoingEdges gl nodeVal start fuel []
    { openSet := [start]
      gScore := ntInsert [] start (JSNum.num 0)
      fScore := ntInsert [] start (heuristics start)
      cameFrom := [] }

/-- Number of occurrences of `x` in one stack. -/
def countTag (x : String) : List String → Nat
  | [] => 0
  | y :: t => (if y = x then 1 else 0) + countTag x t

/-- Number of occurrences of `x` across a list of stacks. -/
def occStacks (x : String) : List (List String) → Nat
  | [] => 0
  | st :: rest => countTag x st + occStacks x rest

/-- Number of places the object identifier `x` occupies in a state:
its occurrences across all stacks plus one if the arm holds it.  The
state invariant of the specification says this is at most one for every
identifier. -/
def occCount (s : WorldState) (x : String) : Nat :=
  occStacks x s.stacks' + (if s.holding = some x then 1 else 0)

/-- Decidable check of `oneStep`. -/
def oneStepB (s t : WorldState) : Bool :=
  match getReachableStates s with
  | some l => l.contains t
  | none => false

/-- A small red brick used by the example worlds. -/
def exBrick (c : String) : ObjRec := ⟨some "small", some c, some "brick"⟩

/-- Example world for the admissibility analysis: columns
`[["x"], [], ["y"]]`, arm over column 0, nothing held. -/
def exS0 : WorldState :=
  ⟨[["x"], [], ["y"]], none, 0, [("x", exBrick "red"), ("y", exBrick "blue")]⟩

/-- `exS0` after picking up `x`. -/
def exS1 : WorldState :=
  ⟨[[], [], ["y"]], some "x", 0, [("x", exBrick "red"), ("y", exBrick "blue")]⟩

/-- `exS1` after moving the arm right. -/
def exS2 : WorldState :=
  ⟨[[], [], ["y"]], some "x", 1, [("x", exBrick "red"), ("y", exBrick "blue")]⟩

/-- `exS2` after dropping `x` on column 1: `beside(x,y)` now holds. -/
def exS3 : WorldState :=
  ⟨[[], ["x"], ["y"]], none, 1, [("x", exBrick "red"), ("y", exBrick "blue")]⟩

/-- The goal formula `beside(x,y)` as a one-disjunct DNF. -/
def exFBeside : List (List Literal) := [[⟨true, "beside", ["x", "y"]⟩]]

/-- `exS0` after moving the arm right (its other successor). -/
def exS0r : WorldState :=
  ⟨[["x"], [], ["y"]], none, 1, [("x", exBrick "red"), ("y", exBrick "blue")]⟩

/-- The successor list of `exS0`: move right, pick up `x`. -/
def exS0succs : List WorldState := [exS0r, exS1]

/-- `exS2` after moving the arm right. -/
def exS2r : WorldState :=
  ⟨[[], [], ["y"]], some "x", 2, [("x", exBrick "red"), ("y", exBrick "blue")]⟩

/-- The successor list of `exS2`: move left, move right, drop `x`. -/
def exS2succs : List WorldState := [exS1, exS2r, exS3]

/-- Example world with `a` left of `b`: columns `[["a"], ["b"]]`. -/
def exS4 : WorldState :=
  ⟨[["a"], ["b"]], none, 0, [("a", exBrick "red"), ("b", exBrick "blue")]⟩

/-- The goal formula `rightof(a,b)` as a one-disjunct DNF; false in
`exS4`. -/
def exFRightof : List (List Literal) := [[⟨true, "rightof", ["a", "b"]⟩]]

/-- A three-node line graph `0 → 1 → 2` with unit edge costs, used to
exercise the search engine. -/
def exGraphOut : Int → List (AEdge Int) := fun n =>
  if n == 0 then [⟨0, 1, JSNum.num 1⟩]
  else if n == 1 then [⟨1, 2, JSNum.num 1⟩]
  else []

/-- A verified transition check yields a `oneStep` transition. -/
theorem oneStep_of_oneStepB {s t : WorldState} (h : oneStepB s t = true) : oneStep s t := by
  unfold oneStepB at h
  cases hgr : getReachableStates s with
  | none => rw [hgr] at h; simp at h
  | some l =>
    rw [hgr] at h
    exact ⟨l, hgr, by simpa [List.contains] using h⟩

/-- C1: the heuristic is not admissible.  In the world `exS0`
(columns `[["x"], [], ["y"]]`, arm at 0) the goal `beside(x,y)` is
reached by the three-action plan pick, right, drop, yet
`heuristicFunction` estimates 5: it charges the full arm trip from x's
column to y's column plus a settle step and a drop on top of the cost of
holding x, so it overestimates the 3-step plan.  The specification
requires `estimate(state, formula) ≤ L` whenever an `L`-step plan
exists. -/
theorem heuristicFunction_overestimates_short_plan :
    reachesIn 3 exS0 exS3 ∧ goal exFBeside exS3 = true ∧ goal exFBeside exS0 = false ∧
      heuristicFunction exS0 exFBeside = JSNum.num 5 := by
  refine ⟨?_, by decide, by decide, by decide⟩
  exact ⟨exS1, oneStep_of_oneStepB (by decide),
    exS2, oneStep_of_oneStepB (by decide),
    exS3, oneStep_of_oneStepB (by decide), rfl⟩

/-- C2: aStarSearch ignores its `timeout` argument entirely — the result
is the same for any two timeout values (the function body never reads
the parameter and consults no clock), and a concrete search run with
timeout 0 still returns a found path instead of the not-found result,
although any real execution of it takes longer than 0 seconds. -/
theorem aStarSearch_never_times_out :
    (∀ (Node : Type) [DecidableEq Node] (graphOut : Node → List (AEdge Node))
        (start : Node) (gl : Node → Bool) (heuristics : Node → JSNum)
        (nodeVal : Node → JSNum) (fuel : Nat) (t1 t2 : JSNum),
        aStarSearch graphOut start gl heuristics t1 nodeVal fuel =
          aStarSearch graphOut start gl heuristics t2 nodeVal fuel) ∧
    aStarSearch exGraphOut 0 (fun n => n == 2) (fun _ => JSNum.num 0) (JSNum.num 0)
        (fun n => JSNum.num n) 10 = some ⟨[0, 1, 2], JSNum.nan⟩ := by
  exact ⟨fun _ _ _ _ _ _ _ _ _ _ => rfl, by decide⟩

/-- C3: an unrecognized relation makes estimatedPathLength return 0, not
`Infinity`: the literal `rightof(a,b)` (the branch meant for it tests
the misspelling `"rigtof"`, which would return 4 here) and a nonsense
relation both fall through to the final branch, which only logs and
returns the initial 0. -/
theorem estimatedPathLength_unrecognized_zero :
    estimatedPathLength exS4 ⟨true, "rightof", ["a", "b"]⟩ = JSNum.num 0 ∧
    estimatedPathLength exS4 ⟨true, "somethingelse", ["a", "b"]⟩ = JSNum.num 0 ∧
    estimatedPathLength exS4 ⟨true, "rigtof", ["a", "b"]⟩ = JSNum.num 4 := by
  exact ⟨by decide, by decide, by decide⟩

/-- C4: the goal-zero biconditional fails.  In `exS4` (columns
`[["a"], ["b"]]`) the formula `rightof(a,b)` is not satisfied, yet the
heuristic is exactly 0, because the misspelled `"rigtof"` branch guard
sends the literal to the default case of estimatedPathLength, which
returns 0. -/
theorem goalZero_biconditional_fails :
    goal exFRightof exS4 = false ∧ heuristicFunction exS4 exFRightof = JSNum.num 0 := by
  exact ⟨by decide, by decide⟩

/-- The JavaScript strict order is irreflexive. -/
theorem jltB_irrefl (a : JSNum) : jltB a a = false := by
  cases a <;> simp [jltB]

/-- The JavaScript strict order is transitive on the values it relates. -/
theorem jltB_trans {a b c : JSNum} (h1 : jltB a b = true) (h2 : jltB b c = true) :
    jltB a c = true := by
  cases a <;> cases b <;> cases c <;> simp [jltB] at * <;> omega

/-- The running-minimum fold used by heuristicFunction over the list of
conjunction sums. -/
def runMin (xs : List JSNum) (m : JSNum) : JSNum :=
  xs.foldl (fun mh h => if jltB h mh then h else mh) m

/-- On a non-goal state, heuristicFunction is the running minimum of the
conjunction sums started from `Infinity`. -/
theorem heuristicFunction_eq_runMin (s : WorldState) (f : List (List Literal))
    (hng : goal f s = false) :
    heuristicFunction s f = runMin (f.map (conjSum s)) JSNum.inf := by
  unfold heuristicFunction runMin
  simp [hng, List.foldl_map]

/-- The running minimum is its starting value or one of the list
elements. -/
theorem runMin_acc_or_mem : ∀ (xs : List JSNum) (m : JSNum),
    runMin xs m = m ∨ runMin xs m ∈ xs := by
  intro xs
  induction xs with
  | nil => exact fun m => Or.inl rfl
  | cons x t ih =>
    intro m
    have hstep : runMin (x :: t) m = runMin t (if jltB x m then x else m) := rfl
    by_cases hx : jltB x m = true
    · rw [hstep, if_pos hx]
      rcases ih x with h | h
      · exact Or.inr (by rw [h]; exact List.mem_cons_self x t)
      · exact Or.inr (List.mem_cons_of_mem x h)
    · rw [Bool.not_eq_true] at hx
      rw [hstep, if_neg (by simp [hx])]
      rcases ih m with h | h
      · exact Or.inl h
      · exact Or.inr (List.mem_cons_of_mem x h)

/-- The running minimum never exceeds its starting value: it equals the
start or is strictly below it. -/
theorem runMin_le_acc : ∀ (xs : List JSNum) (m : JSNum),
    runMin xs m = m ∨ jltB (runMin xs m) m = true := by
  intro xs
  induction xs with
  | nil => exact fun m => Or.inl rfl
  | cons x t ih =>
    intro m
    have hstep : runMin (x :: t) m = runMin t (if jltB x m then x else m) := rfl
    by_cases hx : jltB x m = true
    · rw [hstep, if_pos hx]
      rcases ih x with h | h
      · rw [h]; exact Or.inr hx
      · exact Or.inr (jltB_trans h hx)
    · rw [Bool.not_eq_true] at hx
      rw [hstep, if_neg (by simp [hx])]
      exact ih m

/-- No element of the list is strictly below the running minimum. -/
theorem runMin_not_lt : ∀ (xs : List JSNum) (m x : JSNum), x ∈ xs →
    jltB x (runMin xs m) = false := by
  intro xs
  induction xs with
  | nil => intro m x hx; cases hx
  | cons y t ih =>
    intro m x hx
    have hstep : runMin (y :: t) m = runMin t (if jltB y m then y else m) := rfl
    rw [hstep]
    rcases List.mem_cons.mp hx with rfl | hxt
    · have hym : jltB x (if jltB x m then x else m) = false := by
        by_cases hx1 : jltB x m = true
        · rw [if_pos hx1]; exact jltB_irrefl x
        · rw [Bool.not_eq_true] at hx1
          rw [if_neg (by simp [hx1])]; exact hx1
      rcases runMin_le_acc t (if jltB x m then x else m) with h | h
      · rw [h]; exact hym
      · by_contra hlt
        rw [Bool.not_eq_false] at hlt
        have htr := jltB_trans hlt h
        simp [htr] at hym
    · exact ih _ x hxt

/-- C6: on a state that does not satisfy the formula, heuristicFunction
is the minimum across the disjuncts of the per-literal estimate sums
(`conjSum`): no disjunct's sum is strictly below it, and it is
`Infinity` or one of the sums — never a sum across disjuncts.  (The
non-empty stack list keeps the state inside the domain where the source
heuristic cannot throw.) -/
theorem heuristicFunction_min_of_conjSums (s : WorldState) (f : List (List Literal))
    (hng : goal f s = false) (hne : s.stacks' ≠ []) :
    (∀ c ∈ f, jltB (conjSum s c) (heuristicFunction s f) = false) ∧
    (heuristicFunction s f = JSNum.inf ∨ heuristicFunction s f ∈ f.map (conjSum s)) := by
  rw [heuristicFunction_eq_runMin s f hng]
  constructor
  · intro c hc
    exact runMin_not_lt _ _ _ (List.mem_map_of_mem _ hc)
  · exact runMin_acc_or_mem (f.map (conjSum s)) JSNum.inf

/-- Concrete instance of the minimum characterisation of the heuristic:
in `exS0` with goal `beside(x,y)`, the single disjunct's sum is not below
the heuristic value. -/
theorem heuristicFunction_min_of_conjSums_witness :
    goal exFBeside exS0 = false ∧ exS0.stacks' ≠ [] ∧
    jltB (conjSum exS0 [⟨true, "beside", ["x", "y"]⟩]) (heuristicFunction exS0 exFBeside)
      = false :=
  ⟨by decide, by decide,
    (heuristicFunction_min_of_conjSums exS0 exFBeside (by decide) (by decide)).1
      [⟨true, "beside", ["x", "y"]⟩] (by decide)⟩

/-- A tag absent from a stack is not found by the index scan. -/
theorem idxOfAux_eq_none {x : String} : ∀ {st : List String}, x ∉ st → idxOfAux x st = none := by
  intro st
  induction st with
  | nil => intro _; rfl
  | cons y t ih =>
    intro h
    rw [List.mem_cons, not_or] at h
    unfold idxOfAux
    rw [if_neg (by simp [beq_iff_eq]; exact fun e => h.1 e.symm), ih h.2]
    rfl

/-- The index scan finds the first occurrence of a tag in a stack. -/
theorem idxOfAux_eq_some {x : String} : ∀ {st : List String} {j : Nat},
    st[j]? = some x → (∀ k, k < j → st[k]? ≠ some x) → idxOfAux x st = some j := by
  intro st
  induction st with
  | nil => intro j h _; simp at h
  | cons y t ih =>
    intro j hj hfirst
    cases j with
    | zero =>
      simp at hj
      unfold idxOfAux
      rw [if_pos (by simp [beq_iff_eq, hj])]
    | succ k =>
      have hy : ¬((y == x) = true) := by
        have h0 := hfirst 0 (Nat.succ_pos k)
        simp at h0
        simp [beq_iff_eq]
        exact h0
      unfold idxOfAux
      rw [if_neg hy,
        ih (by simpa using hj)
          (fun k2 hk2 => by
            have := hfirst (k2 + 1) (Nat.succ_lt_succ hk2)
            simpa using this)]
      rfl

/-- When no stack contains the tag, the stack scan returns nothing. -/
theorem stackIndexAux_eq_none {x : String} : ∀ {l : List (List String)},
    (∀ st ∈ l, x ∉ st) → ∀ (base : Int), stackIndexAux x l base = none := by
  intro l
  induction l with
  | nil => intro _ base; rfl
  | cons s0 t ih =>
    intro h base
    unfold stackIndexAux
    rw [if_neg (by simp [List.elem_iff]; exact h s0 (List.mem_cons_self s0 t))]
    exact ih (fun st hst => h st (List.mem_cons_of_mem s0 hst)) (base + 1)

/-- The stack scan returns the offset of the first stack containing the
tag. -/
theorem stackIndexAux_eq_some {x : String} : ∀ {l : List (List String)} {i : Nat}
    {st : List String}, l[i]? = some st → x ∈ st →
    (∀ k, k < i → ∀ st2, l[k]? = some st2 → x ∉ st2) →
    ∀ (base : Int), stackIndexAux x l base = some (base + i) := by
  intro l
  induction l with
  | nil => intro i st h; simp at h
  | cons s0 t ih =>
    intro i st hi hmem hfirst base
    cases i with
    | zero =>
      simp at hi; subst hi
      unfold stackIndexAux
      rw [if_pos (by simp [List.elem_iff]; exact hmem)]
      simp
    | succ k =>
      have hnot : x ∉ s0 := hfirst 0 (Nat.succ_pos k) s0 (by simp)
      unfold stackIndexAux
      rw [if_neg (by simp [List.elem_iff]; exact hnot),
        ih (by simpa using hi) hmem
          (fun k2 hk2 st2 h2 => hfirst (k2 + 1) (Nat.succ_lt_succ hk2) st2 (by simpa using h2))
          (base + 1)]
      congr 1
      omega

/-- When no stack contains the tag, the stackIndexOf scan returns
nothing. -/
theorem stackIndexOfAux_eq_none {x : String} : ∀ {l : List (List String)},
    (∀ st ∈ l, x ∉ st) → stackIndexOfAux x l = none := by
  intro l
  induction l with
  | nil => intro _; rfl
  | cons s0 t ih =>
    intro h
    unfold stackIndexOfAux
    rw [idxOfAux_eq_none (h s0 (List.mem_cons_self s0 t))]
    exact ih (fun st hst => h st (List.mem_cons_of_mem s0 hst))

/-- The within-stack scan of stackIndexOf: skip stacks without the tag,
return the first occurrence index inside the first stack containing
it. -/
theorem stackIndexOfAux_eq_some {x : String} : ∀ {l : List (List String)} {i j : Nat}
    {st : List String}, l[i]? = some st → st[j]? = some x →
    (∀ k, k < i → ∀ st2, l[k]? = some st2 → x ∉ st2) →
    (∀ k, k < j → st[k]? ≠ some x) →
    stackIndexOfAux x l = some (j : Int) := by
  intro l
  induction l with
  | nil => intro i j st h; simp at h
  | cons s0 t ih =>
    intro i j st hi hj hfirstStack hfirstPos
    cases i with
    | zero =>
      simp at hi; subst hi
      unfold stackIndexOfAux
      rw [idxOfAux_eq_some hj hfirstPos]
    | succ k =>
      have hnot : x ∉ s0 := hfirstStack 0 (Nat.succ_pos k) s0 (by simp)
      unfold stackIndexOfAux
      rw [idxOfAux_eq_none hnot]
      exact ih (by simpa using hi) hj
        (fun k2 hk2 st2 h2 => hfirstStack (k2 + 1) (Nat.succ_lt_succ hk2) st2 (by simpa using h2))
        hfirstPos

/-- stackIndex of a tag at the first stack containing it. -/
theorem stackIndex_eq_some {s : WorldState} {x : String} {i : Nat} {st : List String}
    (hi : s.stacks'[i]? = some st) (hmem : x ∈ st)
    (hfirst : ∀ k, k < i → ∀ st2, s.stacks'[k]? = some st2 → x ∉ st2) :
    stackIndex (some x) s = some (i : Int) := by
  have hd : stackIndex (some x) s = stackIndexAux x s.stacks' 0 := rfl
  rw [hd, stackIndexAux_eq_some hi hmem hfirst 0]
  simp

/-- stackIndex of a tag contained in no stack. -/
theorem stackIndex_eq_none {s : WorldState} {x : String}
    (h : ∀ st ∈ s.stacks', x ∉ st) : stackIndex (some x) s = none := by
  have hd : stackIndex (some x) s = stackIndexAux x s.stacks' 0 := rfl
  rw [hd]
  exact stackIndexAux_eq_none h 0

/-- stackIndexOf of a non-floor tag at its first occurrence. -/
theorem stackIndexOf_eq_some {s : WorldState} {x : String} {i j : Nat} {st : List String}
    (hx : x ≠ "floor") (hi : s.stacks'[i]? = some st) (hj : st[j]? = some x)
    (hfirstStack : ∀ k, k < i → ∀ st2, s.stacks'[k]? = some st2 → x ∉ st2)
    (hfirstPos : ∀ k, k < j → st[k]? ≠ some x) :
    stackIndexOf (some x) s = some (j : Int) := by
  have hd : stackIndexOf (some x) s =
      (if x == "floor" then some (-1) else stackIndexOfAux x s.stacks') := rfl
  rw [hd, if_neg (by simp [beq_iff_eq]; exact hx)]
  exact stackIndexOfAux_eq_some hi hj hfirstStack hfirstPos

/-- The holding test of estHolding is false when the arm holds something
else (or nothing). -/
theorem jsEqNull_of_ne {s : WorldState} {x : String} (h : s.holding ≠ some x) :
    jsEqNull (some x) s.holding = false := by
  cases hh : s.holding with
  | none => rfl
  | some y =>
    rw [hh] at h
    have : x ≠ y := fun e => h (by rw [e])
    simp [jsEqNull, beq_iff_eq]
    exact this

/-- On a one-argument holding literal, estimatedPathLength is the
holding estimate (the literal's polarity is ignored). -/
theorem estimatedPathLength_holding_eq (s : WorldState) (p : Bool) (x : String) :
    estimatedPathLength s ⟨p, "holding", [x]⟩ = estHolding s x := rfl

/-- C5: the per-literal estimate of `holding(x)`.  It is 0 when the arm
already holds `x`; `Infinity` when `x` occurs in no stack (in particular
when `x` is the floor or nonexistent); and otherwise the arm's distance
to `x`'s column plus 4 for each object above `x` in that column plus 1
for the pick-up, where the column and position are those of the first
occurrence of `x`. -/
theorem estimatedPathLength_holding_spec (s : WorldState) (x : String) :
    (s.holding = some x → estimatedPathLength s ⟨true, "holding", [x]⟩ = JSNum.num 0) ∧
    (s.holding ≠ some x → (∀ st ∈ s.stacks', x ∉ st) →
      estimatedPathLength s ⟨true, "holding", [x]⟩ = JSNum.inf) ∧
    (∀ (i j : Nat) (st : List String), s.holding ≠ some x → x ≠ "floor" →
      s.stacks'[i]? = some st → st[j]? = some x →
      (∀ k, k < i → ∀ st2, s.stacks'[k]? = some st2 → x ∉ st2) →
      (∀ k, k < j → st[k]? ≠ some x) →
      estimatedPathLength s ⟨true, "holding", [x]⟩ =
        JSNum.num (((s.arm - (i : Int)).natAbs : Int)
          + 4 * ((st.length : Int) - ((j : Int) + 1)) + 1)) := by
  rw [estimatedPathLength_holding_eq]
  refine ⟨?_, ?_, ?_⟩
  · intro hh
    unfold estHolding
    rw [if_pos (by rw [hh]; simp [jsEqNull])]
  · intro hh hnone
    unfold estHolding
    rw [if_neg (by simp [jsEqNull_of_ne hh]), stackIndex_eq_none hnone]
  · intro i j st hh hx hi hj hfirstStack hfirstPos
    have hmem : x ∈ st := by
      have := List.getElem?_eq_some_iff.mp hj
      rcases this with ⟨hlt, hget⟩
      exact hget ▸ List.getElem_mem hlt
    unfold estHolding
    rw [if_neg (by simp [jsEqNull_of_ne hh]),
      stackIndex_eq_some hi hmem hfirstStack,
      stackIndexOf_eq_some hx hi hj hfirstStack hfirstPos]
    have hsa : stackAt s.stacks' (i : Int) = some st := by
      unfold stackAt
      rw [if_pos (Int.natCast_nonneg i)]
      simpa using hi
    show JSNum.num (((s.arm - (i : Int)).natAbs : Int)
        + 4 * ((((stackAt s.stacks' (i : Int)).getD []).length : Int) - ((j : Int) + 1)) + 1) = _
    rw [hsa]
    rfl

/-- Concrete instance of the holding estimate: in `exS0` the arm (at
column 0) does not hold `x`, which sits alone at the bottom of column 0,
so the estimate is 0 arm moves + 0 obstacles + 1 pick = 1. -/
theorem estimatedPathLength_holding_spec_witness :
    exS0.holding ≠ some "x" ∧
    estimatedPathLength exS0 ⟨true, "holding", ["x"]⟩ = JSNum.num 1 := by
  refine ⟨by decide, ?_⟩
  have h := (estimatedPathLength_holding_spec exS0 "x").2.2 0 0 ["x"]
    (by decide) (by decide) (by decide) (by decide)
    (fun k hk => absurd hk (Nat.not_lt_zero k))
    (fun k hk => absurd hk (Nat.not_lt_zero k))
  rw [h]; decide

/-- C10: the goal evaluator judges `ontop(x, "floor")` stack-locally.
When `x` occurs in a stack, the literal is satisfied exactly when `x`'s
first occurrence is at the bottom (index 0) of the first column
containing it, regardless of which column that is; when the arm holds
`x` (so `x` occurs in no stack) the literal is unsatisfied. -/
theorem conjunctive_ontop_floor_spec (s : WorldState) (x : String) :
    (∀ (i j : Nat) (st : List String), x ≠ "floor" →
      s.stacks'[i]? = some st → st[j]? = some x →
      (∀ k, k < i → ∀ st2, s.stacks'[k]? = some st2 → x ∉ st2) →
      (∀ k, k < j → st[k]? ≠ some x) →
      conjunctive ⟨true, "ontop", [x, "floor"]⟩ s = decide (j = 0)) ∧
    (s.holding = some x → (∀ st ∈ s.stacks', x ∉ st) →
      conjunctive ⟨true, "ontop", [x, "floor"]⟩ s = false) := by
  have hred : ∀ (v : Bool), conjunctive ⟨v, "ontop", [x, "floor"]⟩ s =
      jsSub1Eq (stackIndexOf (some x) s) (stackIndexOf (some "floor") s) := by
    intro v
    show (if isInSameStack (some x) (some "floor") s then
        jsSub1Eq (stackIndexOf (some x) s) (stackIndexOf (some "floor") s)
      else false) = _
    rw [if_pos (by unfold isInSameStack; simp [jsEqNull])]
  have hfloor : stackIndexOf (some "floor") s = some (-1) := rfl
  constructor
  · intro i j st hx hi hj hfirstStack hfirstPos
    rw [hred, hfloor, stackIndexOf_eq_some hx hi hj hfirstStack hfirstPos]
    show (((j : Int) - 1) == -1) = decide (j = 0)
    rw [Bool.eq_iff_iff]
    simp only [beq_iff_eq, decide_eq_true_eq]
    omega
  · intro hhold hnone
    rw [hred, hfloor]
    by_cases hx : x = "floor"
    · subst hx
      rw [show stackIndexOf (some "floor") s = some (-1) from rfl]
      decide
    · have hso : stackIndexOf (some x) s = stackIndexOfAux x s.stacks' := by
        show (if x == "floor" then some (-1) else stackIndexOfAux x s.stacks') = _
        rw [if_neg (by simp [beq_iff_eq]; exact hx)]
      rw [hso, stackIndexOfAux_eq_none hnone]
      rfl

/-- Concrete instance of stack-local floor semantics: in `exS0`, `x` is
at the bottom of column 0, so `ontop(x, floor)` is judged satisfied. -/
theorem conjunctive_ontop_floor_spec_witness :
    conjunctive ⟨true, "ontop", ["x", "floor"]⟩ exS0 = decide ((0 : Nat) = 0) :=
  (conjunctive_ontop_floor_spec exS0 "x").1 0 0 ["x"]
    (by decide) (by decide) (by decide)
    (fun k hk => absurd hk (Nat.not_lt_zero k))
    (fun k hk => absurd hk (Nat.not_lt_zero k))

/-- A successful JavaScript index read implies a non-negative index and
a successful list lookup. -/
theorem stackAt_some_elim {l : List (List String)} {i : Int} {st : List String}
    (h : stackAt l i = some st) : 0 ≤ i ∧ l[i.toNat]? = some st := by
  unfold stackAt at h
  by_cases hi : 0 ≤ i
  · rw [if_pos hi] at h; exact ⟨hi, h⟩
  · rw [if_neg hi] at h; cases h

/-- Counting distributes over stack concatenation. -/
theorem countTag_append (x : String) : ∀ (a b : List String),
    countTag x (a ++ b) = countTag x a + countTag x b := by
  intro a b
  induction a with
  | nil => simp [countTag]
  | cons y t ih =>
    show (if y = x then 1 else 0) + countTag x (t ++ b) = _
    rw [ih]
    show _ = (if y = x then 1 else 0) + countTag x t + countTag x b
    omega

/-- Popping the top of a non-empty stack splits its tag count into the
count of the rest and an indicator for the popped element. -/
theorem countTag_dropLast (x : String) : ∀ (st : List String), st ≠ [] →
    countTag x st = countTag x st.dropLast + (if st.getLast? = some x then 1 else 0) := by
  intro st
  induction st with
  | nil => intro h; cases h rfl
  | cons y t ih =>
    intro _
    cases t with
    | nil =>
      show (if y = x then 1 else 0) + 0 = countTag x [] + (if some y = some x then 1 else 0)
      by_cases hyx : y = x
      · subst hyx; simp [countTag]
      · rw [if_neg hyx, if_neg (by simpa using hyx)]
        rfl
    | cons z t2 =>
      have ih2 := ih (by simp)
      show (if y = x then 1 else 0) + countTag x (z :: t2) =
        countTag x (y :: (z :: t2).dropLast) + (if (z :: t2).getLast? = some x then 1 else 0)
      rw [ih2]
      show _ = (if y = x then 1 else 0) + countTag x (z :: t2).dropLast + _
      omega

/-- Replacing the stack at a valid index exchanges its tag count for the
new stack's count. -/
theorem occStacks_set (x : String) : ∀ (l : List (List String)) (k : Nat) (y st : List String),
    l[k]? = some st → occStacks x (l.set k y) + countTag x st = occStacks x l + countTag x y := by
  intro l
  induction l with
  | nil => intro k y st h; simp at h
  | cons s0 t ih =>
    intro k y st h
    cases k with
    | zero =>
      obtain rfl : s0 = st := by simpa using h
      show countTag x y + occStacks x t + countTag x s0 =
        countTag x s0 + occStacks x t + countTag x y
      omega
    | succ k2 =>
      have h2 : t[k2]? = some st := by simpa using h
      have := ih k2 y st h2
      show countTag x s0 + occStacks x (t.set k2 y) + countTag x st =
        countTag x s0 + occStacks x t + countTag x y
      omega

/-- Decomposition of a successful getReachableStates call: the stack
under the arm exists, the result is the arm-move successors followed by
a tail, and the tail is a pick-up successor, a drop successor, or empty,
as decided by `holding`, the stack height and the physical-law check. -/
theorem grs_cases {s : WorldState} {l : List WorldState}
    (hl : getReachableStates s = some l) :
    ∃ st tail, stackAt s.stacks' s.arm = some st ∧
      l = (if 0 < s.arm then [{ s with arm := s.arm - 1 }] else []) ++
          (if s.arm < (s.stacks'.length : Int) - 1 then [{ s with arm := s.arm + 1 }] else []) ++
          tail ∧
      ((s.holding = none ∧ 0 < st.length ∧ tail = [pickState s st]) ∨
       (s.holding = none ∧ st.length = 0 ∧ tail = []) ∨
       (∃ h, s.holding = some h ∧
          checkRelation "ontop" [h, topTag st] s = some true ∧ tail = [dropState s st h]) ∨
       (∃ h, s.holding = some h ∧
          checkRelation "ontop" [h, topTag st] s = some false ∧ tail = [])) := by
  rcases Option.eq_none_or_eq_some (stackAt s.stacks' s.arm) with hst | ⟨st, hst⟩
  · have hcomp : getReachableStates s = none := by
      unfold getReachableStates
      rw [hst]
    rw [hcomp] at hl; cases hl
  · rcases Option.eq_none_or_eq_some s.holding with hh | ⟨h, hh⟩
    · by_cases hlen : 0 < st.length
      · have hcomp : getReachableStates s = some
            ((if 0 < s.arm then [{ s with arm := s.arm - 1 }] else []) ++
             (if s.arm < (s.stacks'.length : Int) - 1 then [{ s with arm := s.arm + 1 }] else []) ++
             [pickState s st]) := by
          unfold getReachableStates
          rw [hst, hh]
          dsimp only
          rw [if_pos hlen]
        rw [hcomp] at hl
        exact ⟨st, [pickState s st], hst, (Option.some.inj hl).symm, Or.inl ⟨hh, hlen, rfl⟩⟩
      · have hcomp : getReachableStates s = some
            ((if 0 < s.arm then [{ s with arm := s.arm - 1 }] else []) ++
             (if s.arm < (s.stacks'.length : Int) - 1 then [{ s with arm := s.arm + 1 }] else [])) := by
          unfold getReachableStates
          rw [hst, hh]
          dsimp only
          rw [if_neg hlen]
        rw [hcomp] at hl
        refine ⟨st, [], hst, ?_, Or.inr (Or.inl ⟨hh, by omega, rfl⟩)⟩
        rw [← Option.some.inj hl]
        simp
    · rcases Option.eq_none_or_eq_some (checkRelation "ontop" [h, topTag st] s) with
        hcr | ⟨canDrop, hcr⟩
      · have hcomp : getReachableStates s = none := by
          unfold getReachableStates
          rw [hst, hh]
          dsimp only
          rw [hcr]
        rw [hcomp] at hl; cases hl
      · cases canDrop with
        | true =>
          have hcomp : getReachableStates s = some
              ((if 0 < s.arm then [{ s with arm := s.arm - 1 }] else []) ++
               (if s.arm < (s.stacks'.length : Int) - 1 then [{ s with arm := s.arm + 1 }] else []) ++
               [dropState s st h]) := by
            unfold getReachableStates
            rw [hst, hh]
            dsimp only
            rw [hcr]
            dsimp only
            rw [if_pos rfl]
          rw [hcomp] at hl
          exact ⟨st, [dropState s st h], hst, (Option.some.inj hl).symm,
            Or.inr (Or.inr (Or.inl ⟨h, hh, hcr, rfl⟩))⟩
        | false =>
          have hcomp : getReachableStates s = some
              ((if 0 < s.arm then [{ s with arm := s.arm - 1 }] else []) ++
               (if s.arm < (s.stacks'.length : Int) - 1 then [{ s with arm := s.arm + 1 }] else [])) := by
            unfold getReachableStates
            rw [hst, hh]
            dsimp only
            rw [hcr]
            dsimp only
            rw [if_neg (by simp)]
          rw [hcomp] at hl
          refine ⟨st, [], hst, ?_, Or.inr (Or.inr (Or.inr ⟨h, hh, hcr, rfl⟩))⟩
          rw [← Option.some.inj hl]
          simp

/-- Every successor produced by getReachableStates has exactly the same
occurrence count for every object identifier as the input state: arm
moves change nothing, picking moves the top of a stack into `holding`,
dropping moves the held object onto a stack. -/
theorem occCount_step {s : WorldState} {l : List WorldState}
    (hl : getReachableStates s = some l) :
    ∀ t ∈ l, ∀ x, occCount t x = occCount s x := by
  obtain ⟨st, tail, hst, hleq, hcases⟩ := grs_cases hl
  obtain ⟨harm, hget⟩ := stackAt_some_elim hst
  intro t htmem x
  rw [hleq] at htmem
  rcases List.mem_append.mp htmem with hbase | htail
  · rcases List.mem_append.mp hbase with hleft | hright
    · by_cases hc : 0 < s.arm
      · rw [if_pos hc] at hleft
        have ht : t = { s with arm := s.arm - 1 } := by simpa using hleft
        rw [ht]; rfl
      · rw [if_neg hc] at hleft; cases hleft
    · by_cases hc : s.arm < (s.stacks'.length : Int) - 1
      · rw [if_pos hc] at hright
        have ht : t = { s with arm := s.arm + 1 } := by simpa using hright
        rw [ht]; rfl
      · rw [if_neg hc] at hright; cases hright
  · rcases hcases with ⟨hh, hlen, htl⟩ | ⟨hh, hlen, htl⟩ | ⟨h, hh, hcr, htl⟩ | ⟨h, hh, hcr, htl⟩
    · rw [htl] at htail
      have ht : t = pickState s st := by simpa using htail
      rw [ht]
      show occStacks x (setAt s.stacks' s.arm st.dropLast) +
        (if st.getLast? = some x then 1 else 0) = occCount s x
      have hsetA : setAt s.stacks' s.arm st.dropLast =
          s.stacks'.set s.arm.toNat st.dropLast := by
        unfold setAt; rw [if_pos harm]
      have hset := occStacks_set x s.stacks' s.arm.toNat st.dropLast st hget
      have hcnt := countTag_dropLast x st (by intro he; rw [he] at hlen; simp at hlen)
      rw [hsetA]
      unfold occCount
      rw [hh]
      have hz : (if (none : Option String) = some x then 1 else 0) = 0 := by simp
      rw [hz]
      omega
    · rw [htl] at htail; cases htail
    · rw [htl] at htail
      have ht : t = dropState s st h := by simpa using htail
      rw [ht]
      show occStacks x (setAt s.stacks' s.arm (st ++ [h])) +
        (if (none : Option String) = some x then 1 else 0) = occCount s x
      have hsetA : setAt s.stacks' s.arm (st ++ [h]) =
          s.stacks'.set s.arm.toNat (st ++ [h]) := by
        unfold setAt; rw [if_pos harm]
      have hset := occStacks_set x s.stacks' s.arm.toNat (st ++ [h]) st hget
      have happ := countTag_append x st [h]
      have hc1 : countTag x [h] = (if h = x then 1 else 0) := by
        show (if h = x then 1 else 0) + 0 = _
        omega
      have hz : (if (none : Option String) = some x then 1 else 0) = 0 := by simp
      have hind : (if some h = some x then 1 else 0) = (if h = x then 1 else 0) := by
        by_cases hhx : h = x
        · simp [hhx]
        · simp [hhx]
      rw [hsetA]
      unfold occCount
      rw [hh, hz, hind]
      omega
    · rw [htl] at htail; cases htail

/-- C7: transition invariant preservation.  From a state where every
object identifier occupies at most one place (at most one stack
position or the held slot), every successor that getReachableStates
produces keeps every identifier's occurrence count exactly equal to its
count in the input — so an identifier occupying exactly one place still
occupies exactly one place, never zero, never two — and in particular
the invariant holds in the successor.  The successors are fresh
structural copies — the embedding is pure, as is the source, which
deep-clones the state before each modification, so the input state is
never modified. -/
theorem getReachableStates_preserves_invariant
    (s : WorldState) (l : List WorldState)
    (hinv : ∀ x, occCount s x ≤ 1) (hl : getReachableStates s = some l) :
    ∀ t ∈ l, ∀ x, occCount t x = occCount s x ∧ occCount t x ≤ 1 := by
  intro t ht x
  refine ⟨occCount_step hl t ht x, ?_⟩
  rw [occCount_step hl t ht x]
  exact hinv x

/-- Concrete instance of invariant preservation: starting from `exS0`
(where each of `x`, `y` occurs once) the pick-up successor `exS1` keeps
the count of `x` exactly one. -/
theorem getReachableStates_preserves_invariant_witness :
    occCount exS1 "x" = occCount exS0 "x" ∧ occCount exS1 "x" ≤ 1 := by
  have hinv : ∀ x, occCount exS0 x ≤ 1 := by
    intro x
    by_cases h1 : "x" = x
    · by_cases h2 : "y" = x
      · exact absurd (h1.trans h2.symm) (by decide)
      · simp [occCount, occStacks, countTag, exS0, h1, h2]
    · by_cases h2 : "y" = x
      · simp [occCount, occStacks, countTag, exS0, h1, h2]
      · simp [occCount, occStacks, countTag, exS0, h1, h2]
  exact getReachableStates_preserves_invariant exS0 exS0succs hinv (by decide)
    exS1 (by decide) "x"

/-- C8: arm-move successors.  The move-left successor (the input with
the arm index decremented and every other field unchanged) is among the
reachable states exactly when the arm is not at column 0, and the
move-right successor (arm incremented, all else unchanged) exactly when
the arm is left of the last column. -/
theorem getReachableStates_arm_moves (s : WorldState) (l : List WorldState)
    (hl : getReachableStates s = some l) :
    ({ s with arm := s.arm - 1 } ∈ l ↔ 0 < s.arm) ∧
    ({ s with arm := s.arm + 1 } ∈ l ↔ s.arm < (s.stacks'.length : Int) - 1) := by
  obtain ⟨st, tail, hst, hleq, hcases⟩ := grs_cases hl
  have htailarm : ∀ u ∈ tail, u.arm = s.arm := by
    rcases hcases with ⟨_, _, htl⟩ | ⟨_, _, htl⟩ | ⟨h, _, _, htl⟩ | ⟨h, _, _, htl⟩ <;> rw [htl]
    · intro u hu
      have hu2 : u = pickState s st := by simpa using hu
      rw [hu2]; rfl
    · intro u hu; cases hu
    · intro u hu
      have hu2 : u = dropState s st h := by simpa using hu
      rw [hu2]; rfl
    · intro u hu; cases hu
  subst hleq
  constructor
  · constructor
    · intro hmem
      rcases List.mem_append.mp hmem with hb | ht
      · rcases List.mem_append.mp hb with h1 | h2
        · by_cases hc : 0 < s.arm
          · exact hc
          · rw [if_neg hc] at h1; cases h1
        · by_cases hc : s.arm < (s.stacks'.length : Int) - 1
          · rw [if_pos hc] at h2
            have heq : { s with arm := s.arm - 1 } = { s with arm := s.arm + 1 } := by
              simpa using h2
            have harm : s.arm - 1 = s.arm + 1 := congrArg WorldState.arm heq
            omega
          · rw [if_neg hc] at h2; cases h2
      · have harm : s.arm - 1 = s.arm := htailarm _ ht
        omega
    · intro hc
      rw [if_pos hc]
      exact List.mem_append_left _ (List.mem_append_left _ (List.mem_singleton_self _))
  · constructor
    · intro hmem
      rcases List.mem_append.mp hmem with hb | ht
      · rcases List.mem_append.mp hb with h1 | h2
        · by_cases hc : 0 < s.arm
          · rw [if_pos hc] at h1
            have heq : { s with arm := s.arm + 1 } = { s with arm := s.arm - 1 } := by
              simpa using h1
            have harm : s.arm + 1 = s.arm - 1 := congrArg WorldState.arm heq
            omega
          · rw [if_neg hc] at h1; cases h1
        · by_cases hc : s.arm < (s.stacks'.length : Int) - 1
          · exact hc
          · rw [if_neg hc] at h2; cases h2
      · have harm : s.arm + 1 = s.arm := htailarm _ ht
        omega
    · intro hc
      rw [if_pos hc]
      exact List.mem_append_left _ (List.mem_append_right _ (List.mem_singleton_self _))

/-- Concrete instance of the arm-move characterisation at `exS2` (arm at
column 1 of three columns): both arm moves are present. -/
theorem getReachableStates_arm_moves_witness :
    ({ exS2 with arm := exS2.arm - 1 } ∈ exS2succs ↔ 0 < exS2.arm) ∧
    ({ exS2 with arm := exS2.arm + 1 } ∈ exS2succs ↔
      exS2.arm < (exS2.stacks'.length : Int) - 1) :=
  getReachableStates_arm_moves exS2 exS2succs (by decide)

/-- C9: drop successor.  The reachable states contain a drop successor
(the held object pushed onto the column under the arm, `holding`
cleared, arm and all other columns unchanged) exactly when something is
held and the physical-law predicate `checkRelation` allows dropping it
on the top object of that column — the floor when the column is
empty. -/
theorem getReachableStates_drop_iff (s : WorldState) (l : List WorldState)
    (hl : getReachableStates s = some l) :
    (∃ h st, s.holding = some h ∧ stackAt s.stacks' s.arm = some st ∧
      dropState s st h ∈ l) ↔
    (∃ h st, s.holding = some h ∧ stackAt s.stacks' s.arm = some st ∧
      checkRelation "ontop" [h, topTag st] s = some true) := by
  obtain ⟨st0, tail, hst0, hleq, hcases⟩ := grs_cases hl
  constructor
  · rintro ⟨h, st, hh, hst, hmem⟩
    obtain rfl : st = st0 := by
      rw [hst] at hst0; exact Option.some.inj hst0
    refine ⟨h, st, hh, hst0, ?_⟩
    have hne : ∀ (a : Int), dropState s st h ≠ { s with arm := a } := by
      intro a heq
      have hhold : (none : Option String) = s.holding := congrArg WorldState.holding heq
      rw [hh] at hhold; cases hhold
    have hnotbase : dropState s st h ∉
        ((if 0 < s.arm then [{ s with arm := s.arm - 1 }] else []) ++
         (if s.arm < (s.stacks'.length : Int) - 1 then [{ s with arm := s.arm + 1 }] else [])) := by
      intro hb
      rcases List.mem_append.mp hb with h1 | h2
      · by_cases hc : 0 < s.arm
        · rw [if_pos hc] at h1
          exact hne _ (by simpa using h1)
        · rw [if_neg hc] at h1; cases h1
      · by_cases hc : s.arm < (s.stacks'.length : Int) - 1
        · rw [if_pos hc] at h2
          exact hne _ (by simpa using h2)
        · rw [if_neg hc] at h2; cases h2
    rw [hleq] at hmem
    have htail : dropState s st h ∈ tail := by
      rcases List.mem_append.mp hmem with hb | ht
      · exact absurd hb hnotbase
      · exact ht
    rcases hcases with ⟨hh2, _, htl⟩ | ⟨hh2, _, htl⟩ | ⟨h2, hh2, hcr, htl⟩ | ⟨h2, hh2, hcr, htl⟩
    · rw [hh2] at hh; cases hh
    · rw [hh2] at hh; cases hh
    · obtain rfl : h2 = h := by rw [hh2] at hh; exact Option.some.inj hh
      exact hcr
    · rw [htl] at htail; cases htail
  · rintro ⟨h, st, hh, hst, hcr⟩
    obtain rfl : st = st0 := by
      rw [hst] at hst0; exact Option.some.inj hst0
    refine ⟨h, st, hh, hst0, ?_⟩
    rcases hcases with ⟨hh2, _, htl⟩ | ⟨hh2, _, htl⟩ | ⟨h2, hh2, hcr2, htl⟩ | ⟨h2, hh2, hcr2, htl⟩
    · rw [hh2] at hh; cases hh
    · rw [hh2] at hh; cases hh
    · obtain rfl : h2 = h := by rw [hh2] at hh; exact Option.some.inj hh
      rw [hleq, htl]
      exact List.mem_append_right _ (List.mem_singleton_self _)
    · obtain rfl : h2 = h := by rw [hh2] at hh; exact Option.some.inj hh
      rw [hcr] at hcr2
      simp at hcr2

/-- Concrete instance of the drop characterisation at `exS2`: the arm
holds the brick `x` over the empty column 1, dropping on the floor is
legal, and indeed the drop successor is present. -/
theorem getReachableStates_drop_iff_witness :
    (∃ h st, exS2.holding = some h ∧ stackAt exS2.stacks' exS2.arm = some st ∧
      dropState exS2 st h ∈ exS2succs) ↔
    (∃ h st, exS2.holding = some h ∧ stackAt exS2.stacks' exS2.arm = some st ∧
      checkRelation "ontop" [h, topTag st] exS2 = some true) :=
  getReachableStates_drop_iff exS2 exS2succs (by decide)

end Shrdlite
